import Mathlib

/-!
Shallow embedding of the timbre_tweak synthesizer (src/main.rs).

Numeric model: `f32` values are modelled as exact rationals (`ℚ`).  The two
library externals that are not expressible over `ℚ` — `f32::sin` and
`f32::to_bits` — are abstracted as parameters bundled in `FloatExt`; the
bound `|sin| ≤ 1` is taken as a hypothesis where a theorem needs it.
`u32`/`usize` values are modelled as `ℕ` with explicit `% 2^32` where the
code performs wrapping arithmetic.  The audio-device stream handle is an
opaque OS resource and is omitted from the `Playback` record.
-/

set_option maxRecDepth 4000

namespace TimbreTweak

/-- External float operations: `sinTau` models `fun t => (t * TAU).sin()`
(the composition of the `f32` sine with the `TAU` scaling, from the `Sine`
arm of `Waveform::at`), and `toBits` models `f32::to_bits` (the IEEE-754
bit pattern of the phase, a `u32`). -/
structure FloatExt where
  sinTau : ℚ → ℚ
  toBits : ℚ → ℕ

/-- Rust `f32::trunc`: rounding toward zero. -/
def rustTrunc (q : ℚ) : ℤ :=
  if 0 ≤ q then ⌊q⌋ else -⌊-q⌋

/-- Rust `f32::fract`: `self - self.trunc()` (negative for negative inputs). -/
def rustFract (q : ℚ) : ℚ :=
  q - rustTrunc q

/-- Rust `expr as usize` on a float: truncation toward zero, saturating at 0
for negative inputs. -/
def rustCastUsize (q : ℚ) : ℕ :=
  (rustTrunc q).toNat

/-- The `fmix32` (MurmurHash3 finalizer) scrambling from the `WhiteNoise`
arm of `Waveform::at`: two rounds of xor-shift-right and wrapping
multiplication by an odd constant, then a final xor-shift.  The input is a
`u32` (reduced mod `2^32`); `wrapping_mul` is multiplication mod `2^32`. -/
def fmix32 (x : ℕ) : ℕ :=
  let n0 := x % 2 ^ 32
  let n1 := ((n0 ^^^ (n0 >>> 16)) * 0x85EBCA6B) % 2 ^ 32
  let n2 := ((n1 ^^^ (n1 >>> 13)) * 0xC2B2AE35) % 2 ^ 32
  n2 ^^^ (n2 >>> 16)

/-- The closed set of waveform variants (`enum Waveform`). -/
inductive Waveform
  | sine
  | triangle
  | sawtooth
  | square
  | whiteNoise
deriving DecidableEq

/-- `Waveform::at(t)`: evaluate the waveform at phase `t`. -/
def Waveform.at (ext : FloatExt) (w : Waveform) (t : ℚ) : ℚ :=
  match w with
  | .sine => ext.sinTau t
  | .triangle =>
      if rustFract t < 1 / 2 then rustFract t * 4 - 1 else 3 - rustFract t * 4
  | .sawtooth => rustFract t * 2 - 1
  | .square => if rustFract t < 1 / 2 then -1 else 1
  | .whiteNoise => (fmix32 (ext.toBits t) : ℚ) / 2147483647 - 1

/-- `struct Curve(Vec<f32>)`: an ordered list of control points. -/
structure Curve where
  points : List ℚ
deriving DecidableEq

/-- `Curve::at(t)`: map `t` to the virtual index `i = t * (len - 1)`,
take `fract = i.fract()` and `k = i as usize`; if `k` is the last index
return `points[k]`, otherwise linearly interpolate between `points[k]`
and `points[k + 1]`.  Out-of-bounds accesses (impossible for a non-empty
curve and `t ∈ [0,1]`) are modelled with default value 0; see
`Curve.atChecked` for the access-guarded version. -/
def Curve.at (c : Curve) (t : ℚ) : ℚ :=
  let i : ℚ := t * ((c.points.length - 1 : ℕ) : ℚ)
  let fract : ℚ := rustFract i
  let k : ℕ := rustCastUsize i
  if k = c.points.length - 1 then c.points.getD k 0
  else (1 - fract) * c.points.getD k 0 + fract * c.points.getD (k + 1) 0

/-- `Curve::at` with every vector index access guarded: returns `none`
exactly when the corresponding Rust indexing would panic. -/
def Curve.atChecked (c : Curve) (t : ℚ) : Option ℚ :=
  let i : ℚ := t * ((c.points.length - 1 : ℕ) : ℚ)
  let fract : ℚ := rustFract i
  let k : ℕ := rustCastUsize i
  if k = c.points.length - 1 then c.points[k]?
  else do
    let a ← c.points[k]?
    let b ← c.points[k + 1]?
    pure ((1 - fract) * a + fract * b)

/-- `struct Wave`: one oscillator. -/
structure Wave where
  waveform : Waveform
  freq : Curve
  amp : Curve

/-- `Wave::at(sec, hz)`: `waveform.at(sec * hz * freq.at(sec)) * amp.at(sec)`. -/
def Wave.at (ext : FloatExt) (w : Wave) (sec hz : ℚ) : ℚ :=
  Waveform.at ext w.waveform (sec * hz * w.freq.at sec) * w.amp.at sec

/-- `struct Timbre`: the master amplitude curve plus the ordered waves. -/
structure Timbre where
  amp : Curve
  waves : List Wave

/-- Stream geometry negotiated with the audio backend. -/
structure StreamConfig where
  channels : ℕ
  sampleRate : ℕ

/-- `struct Playback` (the `Stream` handle field is an opaque OS resource
and is not part of the numeric model). -/
structure Playback where
  streamConfig : Option StreamConfig
  sample : ℕ
  hz : ℚ
  timbre : Timbre

/-- The per-frame counter update from `write_data`:
`(playback.sample + 1) % stream_config.sample_rate`. -/
def advance (rate s : ℕ) : ℕ :=
  (s + 1) % rate

/-- The mixed sample value computed by `write_data` for one frame:
the sum of every wave's value at `(sec, hz)`, scaled by the master
amplitude curve at `sec`. -/
def mixValue (ext : FloatExt) (timbre : Timbre) (sec hz : ℚ) : ℚ :=
  (timbre.waves.map (fun w => w.at ext sec hz)).sum * timbre.amp.at sec

/-- The frame loop of `write_data`: the buffer is traversed in chunks of
`cfg.channels` samples (`chunks_mut`; the chunk size must be positive, so
this models the loop for `cfg.channels ≥ 1`); for each frame the mixed
value at `sec = sample / sample_rate` is converted with `conv`
(`T::from_sample`) and written into every slot of the chunk, and the
counter advances by one mod the sample rate.  Returns the written buffer
and the final counter. -/
def writeFrames {T : Type} (ext : FloatExt) (conv : ℚ → T) (cfg : StreamConfig)
    (hz : ℚ) (timbre : Timbre) : List T → ℕ → List T × ℕ
  | [], s => ([], s)
  | _ :: ds, s =>
      let sec : ℚ := (s : ℚ) / (cfg.sampleRate : ℚ)
      let value : T := conv (mixValue ext timbre sec hz)
      let s2 : ℕ := advance cfg.sampleRate s
      let rest := writeFrames ext conv cfg hz timbre (ds.drop (cfg.channels - 1)) s2
      (List.replicate (1 + min (cfg.channels - 1) ds.length) value ++ rest.1, rest.2)
  termination_by l _ => l.length
  decreasing_by simp [List.length_drop]; omega

/-- `write_data`: with no installed stream config, print a diagnostic and
return with the buffer and state untouched; otherwise run the frame loop
and store the final counter. -/
def writeData {T : Type} (ext : FloatExt) (conv : ℚ → T) (data : List T)
    (p : Playback) : List T × Playback :=
  match p.streamConfig with
  | none => (data, p)
  | some cfg =>
      let r := writeFrames ext conv cfg p.hz p.timbre data p.sample
      (r.1, { p with sample := r.2 })

/-- The `+` button of `ui_curve`: push a duplicate of the last point
(`curve.0.push(*curve.0.last().unwrap())`; the unwrap is total for a
non-empty curve, modelled with default 0). -/
def appendPoint (c : Curve) : Curve :=
  ⟨c.points ++ [c.points.getLastD 0]⟩

/-- The `-` button of `ui_curve`: remove the last point only when more
than one point remains (`if ... && curve.0.len() > 1 { curve.0.pop(); }`). -/
def popPoint (c : Curve) : Curve :=
  if 1 < c.points.length then ⟨c.points.dropLast⟩ else c

/-- The Load branch of `MyApp::update`: `parsed` is the outcome of the
dialog / file-read / JSON-parse chain (`none` when any step fails).  On
success the whole timbre is replaced; on failure a diagnostic is printed
and the state is untouched. -/
def loadTimbre (parsed : Option Timbre) (p : Playback) : Playback :=
  match parsed with
  | some timbre => { p with timbre := timbre }
  | none => p

/-- The `Add wave` button of `MyApp::update`: push a wave with the
default parameters. -/
def addWave (t : Timbre) : Timbre :=
  { t with waves := t.waves ++ [{ waveform := .sine, freq := ⟨[1]⟩, amp := ⟨[1 / 2]⟩ }] }

/-- The documented state invariant: every curve reachable from the timbre
has at least one point. -/
def TimbreInv (t : Timbre) : Prop :=
  1 ≤ t.amp.points.length ∧
    ∀ w ∈ t.waves, 1 ≤ w.freq.points.length ∧ 1 ≤ w.amp.points.length

instance (t : Timbre) : Decidable (TimbreInv t) := by
  unfold TimbreInv; infer_instance

/-- A concrete `FloatExt` instantiation used to evaluate the model at
specific inputs in waveform arms that do not consult `sinTau`/`toBits`. -/
def ext0 : FloatExt :=
  ⟨fun _ => 0, fun _ => 0⟩

/-! ### Basic lemmas about the float primitives -/

theorem rustTrunc_of_nonneg {q : ℚ} (h : 0 ≤ q) : rustTrunc q = ⌊q⌋ := by
  simp [rustTrunc, h]

theorem rustFract_of_nonneg {q : ℚ} (h : 0 ≤ q) : rustFract q = Int.fract q := by
  simp only [rustFract, rustTrunc_of_nonneg h, Int.fract]

theorem rustCastUsize_of_nonneg {q : ℚ} (h : 0 ≤ q) :
    rustCastUsize q = (⌊q⌋).toNat := by
  simp [rustCastUsize, rustTrunc_of_nonneg h]

theorem rustFract_nonneg {q : ℚ} (h : 0 ≤ q) : 0 ≤ rustFract q := by
  rw [rustFract_of_nonneg h]; exact Int.fract_nonneg q

theorem rustFract_lt_one {q : ℚ} (h : 0 ≤ q) : rustFract q < 1 := by
  rw [rustFract_of_nonneg h]; exact Int.fract_lt_one q

theorem fmix32_lt (x : ℕ) : fmix32 x < 2 ^ 32 := by
  unfold fmix32
  set n2 := ((((x % 2 ^ 32) ^^^ ((x % 2 ^ 32) >>> 16)) * 0x85EBCA6B) % 2 ^ 32 ^^^
      ((((x % 2 ^ 32) ^^^ ((x % 2 ^ 32) >>> 16)) * 0x85EBCA6B) % 2 ^ 32) >>> 13) * 0xC2B2AE35
      % 2 ^ 32 with hn2
  have h2 : n2 < 2 ^ 32 := hn2 ▸ Nat.mod_lt _ (by norm_num)
  exact Nat.xor_lt_two_pow h2 (lt_of_le_of_lt (by
    rw [Nat.shiftRight_eq_div_pow]; exact Nat.div_le_self _ _) h2)

theorem getLastD_eq_getD_length_sub_one (l : List ℚ) (d : ℚ) :
    l.getLastD d = l.getD (l.length - 1) d := by
  rw [List.getLastD_eq_getLast?, List.getLast?_eq_getElem?, List.getD_eq_getElem?_getD]

theorem getD_append_lt (P : List ℚ) (x : ℚ) (k : ℕ) (h : k < P.length) :
    (P ++ [x]).getD k 0 = P.getD k 0 := by
  rw [List.getD_eq_getElem?_getD, List.getD_eq_getElem?_getD, List.getElem?_append_left h]

theorem getD_append_len (P : List ℚ) (x : ℚ) :
    (P ++ [x]).getD P.length 0 = x := by
  rw [List.getD_eq_getElem?_getD, List.getElem?_concat_length]
  rfl

theorem curve_at_zero (c : Curve) : Curve.at c 0 = c.points.getD 0 0 := by
  have h0 : rustFract (0 : ℚ) = 0 := by
    simp [rustFract, rustTrunc]
  have hc : rustCastUsize (0 : ℚ) = 0 := by
    simp [rustCastUsize, rustTrunc]
  simp only [Curve.at, zero_mul, h0, hc]
  split
  · rfl
  · ring_nf

theorem curve_at_one_eq_last (c : Curve) :
    Curve.at c 1 = c.points.getD (c.points.length - 1) 0 := by
  simp only [Curve.at, one_mul]
  rw [rustCastUsize_of_nonneg (Nat.cast_nonneg _), Int.floor_natCast, Int.toNat_natCast]
  simp

theorem curve_at_singleton (c : Curve) (h : c.points.length = 1) (t : ℚ) :
    Curve.at c t = c.points.getD 0 0 := by
  simp only [Curve.at, h]
  norm_num [rustCastUsize, rustTrunc]

/-- Modelled from the spec: the reference interpolation contract of
`Curve::at` (§4.1) — virtual index `i = t * (n - 1)`, `k = floor i`,
`frac = i - k`; return `points[k]` when `k = n - 1`, otherwise
`(1 - frac) * points[k] + frac * points[k + 1]`. -/
def refCurveAt (c : Curve) (t : ℚ) : ℚ :=
  let n := c.points.length
  let i : ℚ := t * ((n - 1 : ℕ) : ℚ)
  let k : ℕ := (⌊i⌋).toNat
  let frac : ℚ := i - ((⌊i⌋ : ℤ) : ℚ)
  if k = n - 1 then c.points.getD k 0
  else (1 - frac) * c.points.getD k 0 + frac * c.points.getD (k + 1) 0

/-- Claim C3: for every curve with at least one point and every
`t ∈ [0,1]`, `Curve::at` agrees with the reference definition of the
spec; at `t = 1` it returns exactly the last point, and a single-point
curve returns its sole point for every such `t`. -/
theorem curve_at_matches_reference (c : Curve) (t : ℚ)
    (hn : 1 ≤ c.points.length) (h0 : 0 ≤ t) (h1 : t ≤ 1) :
    Curve.at c t = refCurveAt c t ∧
    Curve.at c 1 = c.points.getLastD 0 ∧
    (c.points.length = 1 → Curve.at c t = c.points.getD 0 0) := by
  have hi : (0 : ℚ) ≤ t * ((c.points.length - 1 : ℕ) : ℚ) :=
    mul_nonneg h0 (Nat.cast_nonneg _)
  refine ⟨?_, ?_, ?_⟩
  · simp only [Curve.at, refCurveAt, rustCastUsize_of_nonneg hi,
      rustFract_of_nonneg hi, Int.fract]
  · rw [curve_at_one_eq_last, getLastD_eq_getD_length_sub_one]
  · intro hlen
    exact curve_at_singleton c hlen t

theorem curve_at_matches_reference_witness :
    Curve.at ⟨[0, 1]⟩ (1 / 2) = refCurveAt ⟨[0, 1]⟩ (1 / 2) ∧
    Curve.at ⟨[0, 1]⟩ 1 = (Curve.mk [0, 1]).points.getLastD 0 ∧
    ((Curve.mk [0, 1]).points.length = 1 →
      Curve.at ⟨[0, 1]⟩ (1 / 2) = (Curve.mk [0, 1]).points.getD 0 0) :=
  curve_at_matches_reference ⟨[0, 1]⟩ (1 / 2) (by norm_num) (by norm_num) (by norm_num)

/-- Claim C7: the `-` button removes the last point when at least two
points remain, and leaves the curve completely unchanged when exactly
one point remains; the `+` button always adds a point; both preserve
the invariant `length ≥ 1`. -/
theorem curve_mutations_preserve_nonempty (c : Curve) (hn : 1 ≤ c.points.length) :
    1 ≤ (popPoint c).points.length ∧
    1 ≤ (appendPoint c).points.length ∧
    (appendPoint c).points.length = c.points.length + 1 ∧
    (c.points.length = 1 → popPoint c = c) ∧
    (2 ≤ c.points.length →
      (popPoint c).points = c.points.dropLast ∧
      (popPoint c).points.length = c.points.length - 1) := by
  refine ⟨?_, ?_, ?_, ?_, ?_⟩
  · unfold popPoint
    split
    · next h => simp only [List.length_dropLast]; omega
    · exact hn
  · simp [appendPoint]
  · simp [appendPoint]
  · intro h1
    unfold popPoint
    split
    · next h => omega
    · rfl
  · intro h2
    unfold popPoint
    split
    · next h => simp [List.length_dropLast]
    · next h => omega

theorem curve_mutations_preserve_nonempty_witness :
    1 ≤ (popPoint ⟨[1, 2]⟩).points.length ∧
    1 ≤ (appendPoint ⟨[1, 2]⟩).points.length ∧
    (appendPoint ⟨[1, 2]⟩).points.length = (Curve.mk [1, 2]).points.length + 1 ∧
    ((Curve.mk [1, 2]).points.length = 1 → popPoint ⟨[1, 2]⟩ = ⟨[1, 2]⟩) ∧
    (2 ≤ (Curve.mk [1, 2]).points.length →
      (popPoint ⟨[1, 2]⟩).points = (Curve.mk [1, 2]).points.dropLast ∧
      (popPoint ⟨[1, 2]⟩).points.length = (Curve.mk [1, 2]).points.length - 1) :=
  curve_mutations_preserve_nonempty ⟨[1, 2]⟩ (by norm_num)

/-- Claim C8: a successful load replaces the whole in-memory timbre and
nothing else; a failed dialog / read / parse chain leaves the whole
`Playback` state exactly as it was. -/
theorem load_timbre_all_or_nothing (p : Playback) (t : Timbre) :
    loadTimbre (some t) p = { p with timbre := t } ∧
    (loadTimbre (some t) p).streamConfig = p.streamConfig ∧
    (loadTimbre (some t) p).sample = p.sample ∧
    (loadTimbre (some t) p).hz = p.hz ∧
    (loadTimbre (some t) p).timbre = t ∧
    loadTimbre none p = p :=
  ⟨rfl, rfl, rfl, rfl, rfl, rfl⟩

/-- Claim C10: when `write_data` runs with no installed stream config it
returns immediately — the output buffer and every `Playback` field are
left unchanged. -/
theorem write_data_no_config_no_effect {T : Type} (ext : FloatExt) (conv : ℚ → T)
    (data : List T) (p : Playback) (h : p.streamConfig = none) :
    writeData ext conv data p = (data, p) := by
  simp only [writeData, h]

theorem write_data_no_config_no_effect_witness :
    writeData ext0 id [(1 : ℚ), 2] (Playback.mk none 7 440 ⟨⟨[1 / 2]⟩, []⟩) =
      ([(1 : ℚ), 2], Playback.mk none 7 440 ⟨⟨[1 / 2]⟩, []⟩) :=
  write_data_no_config_no_effect ext0 id [(1 : ℚ), 2] _ rfl

theorem advance_iterate (R j : ℕ) : (advance R)^[j] 0 = j % R := by
  induction j with
  | zero => simp
  | succ n ih =>
      rw [Function.iterate_succ_apply', ih, advance]
      exact Nat.ModEq.add_right 1 (Nat.mod_modEq n R)

/-- Claim C2: each frame processed by the fill loop advances the counter
by exactly one modulo the sample rate; the counter stays below the rate,
`sec = counter / rate` stays in `[0,1)`, and starting from 0 the counter
first returns to 0 after exactly `R` advances. -/
theorem sample_counter_advance_wraps {T : Type} (ext : FloatExt) (conv : ℚ → T)
    (cfg : StreamConfig) (hz : ℚ) (timbre : Timbre) (d : T) (ds : List T)
    (s j : ℕ) (hs : s < cfg.sampleRate) (hj0 : 0 < j) (hjR : j < cfg.sampleRate) :
    (writeFrames ext conv cfg hz timbre (d :: ds) s).2 =
      (writeFrames ext conv cfg hz timbre (ds.drop (cfg.channels - 1))
        (advance cfg.sampleRate s)).2 ∧
    advance cfg.sampleRate s = (s + 1) % cfg.sampleRate ∧
    advance cfg.sampleRate s < cfg.sampleRate ∧
    (advance cfg.sampleRate)^[cfg.sampleRate] 0 = 0 ∧
    (advance cfg.sampleRate)^[j] 0 = j ∧
    0 ≤ (s : ℚ) / (cfg.sampleRate : ℚ) ∧ (s : ℚ) / (cfg.sampleRate : ℚ) < 1 := by
  have hR : 0 < cfg.sampleRate := Nat.pos_of_ne_zero (by omega)
  refine ⟨by simp [writeFrames], rfl, Nat.mod_lt _ hR, ?_, ?_, ?_, ?_⟩
  · rw [advance_iterate, Nat.mod_self]
  · rw [advance_iterate, Nat.mod_eq_of_lt hjR]
  · positivity
  · rw [div_lt_one (by exact_mod_cast hR)]
    exact_mod_cast hs

theorem sample_counter_advance_wraps_witness :
    (writeFrames ext0 (id : ℚ → ℚ) ⟨2, 4⟩ 440 ⟨⟨[1 / 2]⟩, []⟩ [(0 : ℚ)] 1).2 =
      (writeFrames ext0 (id : ℚ → ℚ) ⟨2, 4⟩ 440 ⟨⟨[1 / 2]⟩, []⟩
        (List.drop ((StreamConfig.mk 2 4).channels - 1) []) (advance 4 1)).2 ∧
    advance 4 1 = (1 + 1) % 4 ∧
    advance 4 1 < 4 ∧
    (advance 4)^[4] 0 = 0 ∧
    (advance 4)^[2] 0 = 2 ∧
    0 ≤ (1 : ℚ) / (4 : ℚ) ∧ (1 : ℚ) / (4 : ℚ) < 1 := by
  have h := sample_counter_advance_wraps ext0 (id : ℚ → ℚ) ⟨2, 4⟩ 440 ⟨⟨[1 / 2]⟩, []⟩
    (0 : ℚ) [] 1 2 (by norm_num) (by norm_num) (by norm_num)
  exact_mod_cast h

theorem whiteNoise_val_bounds (m : ℕ) (hm : m < 2 ^ 32) :
    -1 ≤ (m : ℚ) / 2147483647 - 1 ∧ (m : ℚ) / 2147483647 - 1 ≤ 1.01 := by
  have hm2 : (m : ℚ) ≤ 4294967295 := by
    have : m ≤ 4294967295 := by omega
    exact_mod_cast this
  have h0 : (0 : ℚ) ≤ (m : ℚ) / 2147483647 := by positivity
  have h1 : (m : ℚ) / 2147483647 ≤ 4294967295 / 2147483647 :=
    (div_le_div_right (by norm_num)).mpr hm2
  constructor
  · linarith
  · have : (4294967295 : ℚ) / 2147483647 ≤ 2.01 := by norm_num
    linarith

/-- Claim C4 counterexample: the claim asserts `Waveform::at` stays in
`[-1,1]` for every phase, in particular negative phases; but Rust
`fract` is negative for negative inputs, so `Triangle` at phase `-1/2`
evaluates to `-1/2 * 4 - 1 = -3`, far outside `[-1,1]`. -/
theorem waveform_at_triangle_negative_phase :
    Waveform.at ext0 .triangle (-(1 / 2)) = -3 ∧
    ¬(-1 ≤ Waveform.at ext0 .triangle (-(1 / 2)) ∧
      Waveform.at ext0 .triangle (-(1 / 2)) ≤ 1) := by
  have hf : ⌊(1 / 2 : ℚ)⌋ = 0 := Int.floor_eq_iff.mpr (by norm_num)
  have h : Waveform.at ext0 .triangle (-(1 / 2)) = -3 := by
    norm_num [Waveform.at, rustFract, rustTrunc, hf]
  rw [h]
  norm_num

/-- Claim C4 (amended): for every waveform variant and every phase
`t ≥ 0`, `Waveform::at` is bounded: the non-noise variants stay in
`[-1,1]` (for `Sine` under the bound of the external `sin`), and
`WhiteNoise` stays in `[-1, 1.01]` in the exact-rational model. -/
theorem waveform_at_bounded (ext : FloatExt) (w : Waveform) (t : ℚ)
    (hsin : ∀ x : ℚ, -1 ≤ ext.sinTau x ∧ ext.sinTau x ≤ 1) (ht : 0 ≤ t) :
    -1 ≤ Waveform.at ext w t ∧ Waveform.at ext w t ≤ 1.01 ∧
    (w ≠ .whiteNoise → Waveform.at ext w t ≤ 1) := by
  have hf0 : 0 ≤ rustFract t := rustFract_nonneg ht
  have hf1 : rustFract t < 1 := rustFract_lt_one ht
  have h101 : (1 : ℚ) ≤ 1.01 := by norm_num
  cases w with
  | sine =>
      obtain ⟨ha, hb⟩ := hsin t
      exact ⟨ha, hb.trans h101, fun _ => hb⟩
  | triangle =>
      simp only [Waveform.at]
      by_cases h : rustFract t < 1 / 2
      · rw [if_pos h]
        have hU : rustFract t * 4 - 1 ≤ 1 := by linarith
        exact ⟨by linarith, hU.trans h101, fun _ => hU⟩
      · rw [if_neg h]
        push_neg at h
        have hU : 3 - rustFract t * 4 ≤ 1 := by linarith
        exact ⟨by linarith, hU.trans h101, fun _ => hU⟩
  | sawtooth =>
      simp only [Waveform.at]
      have hU : rustFract t * 2 - 1 ≤ 1 := by linarith
      exact ⟨by linarith, hU.trans h101, fun _ => hU⟩
  | square =>
      simp only [Waveform.at]
      by_cases h : rustFract t < 1 / 2
      · rw [if_pos h]
        exact ⟨by norm_num, by norm_num, fun _ => by norm_num⟩
      · rw [if_neg h]
        exact ⟨by norm_num, by norm_num, fun _ => by norm_num⟩
  | whiteNoise =>
      obtain ⟨ha, hb⟩ := whiteNoise_val_bounds (fmix32 (ext.toBits t)) (fmix32_lt _)
      exact ⟨ha, hb, fun h => absurd rfl h⟩

theorem waveform_at_bounded_witness :
    -1 ≤ Waveform.at ext0 .square 0 ∧ Waveform.at ext0 .square 0 ≤ 1.01 ∧
    (Waveform.square ≠ .whiteNoise → Waveform.at ext0 .square 0 ≤ 1) :=
  waveform_at_bounded ext0 .square 0 (fun _ => by norm_num [ext0]) le_rfl

/-- Claim C6: `WhiteNoise` evaluation is the `fmix32` finalizer hash of
the phase's bit pattern normalized as `n / i32::MAX - 1`: bit-identical
phases give identical output, and the output lies in `[-1, 1.01]`. -/
theorem white_noise_hash_deterministic_bounded (ext : FloatExt) (t t2 : ℚ)
    (hbits : ext.toBits t2 = ext.toBits t) :
    Waveform.at ext .whiteNoise t = (fmix32 (ext.toBits t) : ℚ) / 2147483647 - 1 ∧
    Waveform.at ext .whiteNoise t2 = Waveform.at ext .whiteNoise t ∧
    -1 ≤ Waveform.at ext .whiteNoise t ∧ Waveform.at ext .whiteNoise t ≤ 1.01 := by
  obtain ⟨ha, hb⟩ := whiteNoise_val_bounds (fmix32 (ext.toBits t)) (fmix32_lt _)
  exact ⟨rfl, by simp [Waveform.at, hbits], ha, hb⟩

theorem white_noise_hash_deterministic_bounded_witness :
    Waveform.at ext0 .whiteNoise 0 = (fmix32 (ext0.toBits 0) : ℚ) / 2147483647 - 1 ∧
    Waveform.at ext0 .whiteNoise 0 = Waveform.at ext0 .whiteNoise 0 ∧
    -1 ≤ Waveform.at ext0 .whiteNoise 0 ∧ Waveform.at ext0 .whiteNoise 0 ≤ 1.01 :=
  white_noise_hash_deterministic_bounded ext0 0 0 rfl

theorem append_at_high (c : Curve) (t : ℚ) (hn : 1 ≤ c.points.length)
    (h0 : 0 ≤ t) (h1 : t ≤ 1)
    (hB : (c.points.length : ℚ) - 1 ≤ t * c.points.length) :
    Curve.at (appendPoint c) t = c.points.getD (c.points.length - 1) 0 := by
  have hqlen : (appendPoint c).points.length = c.points.length + 1 := by
    simp [appendPoint]
  have hi0 : (0 : ℚ) ≤ t * c.points.length := mul_nonneg h0 (Nat.cast_nonneg _)
  have hub : t * (c.points.length : ℚ) ≤ c.points.length := by
    calc t * (c.points.length : ℚ) ≤ 1 * c.points.length :=
          mul_le_mul_of_nonneg_right h1 (Nat.cast_nonneg _)
      _ = c.points.length := one_mul _
  have hgl : (appendPoint c).points.getD c.points.length 0 =
      c.points.getD (c.points.length - 1) 0 := by
    show (c.points ++ [c.points.getLastD 0]).getD c.points.length 0 = _
    rw [getD_append_len, getLastD_eq_getD_length_sub_one]
  simp only [Curve.at, hqlen, Nat.add_sub_cancel, rustCastUsize_of_nonneg hi0,
    rustFract_of_nonneg hi0, Int.fract]
  by_cases ht1 : t * (c.points.length : ℚ) = c.points.length
  · have hfl : ⌊t * (c.points.length : ℚ)⌋ = (c.points.length : ℤ) := by
      rw [ht1]; exact Int.floor_natCast _
    rw [hfl]
    simp only [Int.toNat_natCast, if_pos rfl]
    exact hgl
  · have hlt : t * (c.points.length : ℚ) < c.points.length := lt_of_le_of_ne hub ht1
    have hfl : ⌊t * (c.points.length : ℚ)⌋ = (c.points.length : ℤ) - 1 := by
      apply Int.floor_eq_iff.mpr
      constructor
      · push_cast; linarith
      · push_cast; linarith
    have htn : ((c.points.length : ℤ) - 1).toNat = c.points.length - 1 := by omega
    have hne : c.points.length - 1 ≠ c.points.length := by omega
    have hidx : c.points.length - 1 + 1 = c.points.length := by omega
    rw [hfl, htn, if_neg hne, hidx, hgl]
    have hglt : (appendPoint c).points.getD (c.points.length - 1) 0 =
        c.points.getD (c.points.length - 1) 0 := by
      show (c.points ++ [c.points.getLastD 0]).getD (c.points.length - 1) 0 = _
      exact getD_append_lt _ _ _ (by omega)
    rw [hglt]
    ring

theorem append_at_low (c : Curve) (t : ℚ) (hn : 1 ≤ c.points.length)
    (h0 : 0 ≤ t)
    (hA : t * c.points.length ≤ (c.points.length : ℚ) - 1) :
    Curve.at (appendPoint c) t =
      Curve.at c (t * c.points.length / ((c.points.length : ℚ) - 1)) := by
  have hqlen : (appendPoint c).points.length = c.points.length + 1 := by
    simp [appendPoint]
  have hi0 : (0 : ℚ) ≤ t * c.points.length := mul_nonneg h0 (Nat.cast_nonneg _)
  rcases Nat.lt_or_ge c.points.length 2 with h1 | h2
  · -- a single point: the condition forces t = 0 and both sides are the point
    have hlen1 : c.points.length = 1 := by omega
    have ht0 : t = 0 := by
      rw [hlen1] at hA
      push_cast at hA
      linarith
    subst ht0
    rw [zero_mul, zero_div, curve_at_zero, curve_at_zero]
    show (c.points ++ [c.points.getLastD 0]).getD 0 0 = _
    exact getD_append_lt _ _ _ (by omega)
  · -- at least two points: the virtual indices coincide after rescaling
    have hc1 : (1 : ℚ) ≤ (c.points.length : ℚ) - 1 := by
      have : (2 : ℚ) ≤ c.points.length := by exact_mod_cast h2
      linarith
    have hcpos : (0 : ℚ) < (c.points.length : ℚ) - 1 := by linarith
    have hsi : t * c.points.length / ((c.points.length : ℚ) - 1) *
        ((c.points.length - 1 : ℕ) : ℚ) = t * c.points.length := by
      rw [Nat.cast_sub hn]
      push_cast
      field_simp
    have hs0 : (0 : ℚ) ≤ t * c.points.length / ((c.points.length : ℚ) - 1) :=
      div_nonneg hi0 hcpos.le
    have hkle : ⌊t * (c.points.length : ℚ)⌋ ≤ (c.points.length : ℤ) - 1 := by
      have := Int.floor_le_floor hA
      rwa [show ((c.points.length : ℚ) - 1) = (((c.points.length : ℤ) - 1 : ℤ) : ℚ) by
        push_cast; ring, Int.floor_intCast] at this
    have hk0 : 0 ≤ ⌊t * (c.points.length : ℚ)⌋ := Int.floor_nonneg.mpr hi0
    simp only [Curve.at, hqlen, Nat.add_sub_cancel, hsi, rustCastUsize_of_nonneg hi0,
      rustCastUsize_of_nonneg hs0, rustFract_of_nonneg hi0, rustFract_of_nonneg hs0,
      Int.fract, hsi]
    by_cases hk : ⌊t * (c.points.length : ℚ)⌋ = (c.points.length : ℤ) - 1
    · -- the index lands exactly on the last original point
      have hieq : t * (c.points.length : ℚ) = (c.points.length : ℚ) - 1 := by
        have hle : ((⌊t * (c.points.length : ℚ)⌋ : ℤ) : ℚ) ≤ t * c.points.length :=
          Int.floor_le _
        rw [hk] at hle
        push_cast at hle
        linarith
      have hfr0 : t * (c.points.length : ℚ) - (⌊t * (c.points.length : ℚ)⌋ : ℚ) = 0 := by
        rw [hk, hieq]; push_cast; ring
      have htn : (⌊t * (c.points.length : ℚ)⌋).toNat = c.points.length - 1 := by omega
      have hne : c.points.length - 1 ≠ c.points.length := by omega
      have heq : c.points.length - 1 = c.points.length - 1 := rfl
      rw [hfr0, htn, if_neg hne, if_pos heq]
      have hglt : (appendPoint c).points.getD (c.points.length - 1) 0 =
          c.points.getD (c.points.length - 1) 0 := by
        show (c.points ++ [c.points.getLastD 0]).getD (c.points.length - 1) 0 = _
        exact getD_append_lt _ _ _ (by omega)
      rw [hglt]
      ring
    · -- strictly interior: both curves interpolate the same two points
      have hklt : ⌊t * (c.points.length : ℚ)⌋ ≤ (c.points.length : ℤ) - 2 := by omega
      have hne : (⌊t * (c.points.length : ℚ)⌋).toNat ≠ c.points.length := by omega
      have hnec : (⌊t * (c.points.length : ℚ)⌋).toNat ≠ c.points.length - 1 := by omega
      rw [if_neg hne, if_neg hnec]
      have hga : (appendPoint c).points.getD (⌊t * (c.points.length : ℚ)⌋).toNat 0 =
          c.points.getD (⌊t * (c.points.length : ℚ)⌋).toNat 0 := by
        show (c.points ++ [c.points.getLastD 0]).getD _ 0 = _
        exact getD_append_lt _ _ _ (by omega)
      have hgb : (appendPoint c).points.getD ((⌊t * (c.points.length : ℚ)⌋).toNat + 1) 0 =
          c.points.getD ((⌊t * (c.points.length : ℚ)⌋).toNat + 1) 0 := by
        show (c.points ++ [c.points.getLastD 0]).getD _ 0 = _
        exact getD_append_lt _ _ _ (by omega)
      rw [hga, hgb]

/-- Claim C5 counterexample: the claim asserts appending a duplicate of
the last point leaves the evaluated shape unchanged, but the virtual
index is scaled by the point count, so the curve `[0,1]` evaluates to
`1/4` at `t = 1/4` while the appended curve `[0,1,1]` evaluates to
`1/2` there. -/
theorem append_point_changes_curve_shape :
    Curve.at ⟨[0, 1]⟩ (1 / 4) = 1 / 4 ∧
    Curve.at (appendPoint ⟨[0, 1]⟩) (1 / 4) = 1 / 2 ∧
    Curve.at (appendPoint ⟨[0, 1]⟩) (1 / 4) ≠ Curve.at ⟨[0, 1]⟩ (1 / 4) := by
  have hf4 : ⌊(1 / 4 : ℚ)⌋ = 0 := Int.floor_eq_iff.mpr (by norm_num)
  have hf2 : ⌊(1 / 2 : ℚ)⌋ = 0 := Int.floor_eq_iff.mpr (by norm_num)
  have e1 : Curve.at ⟨[0, 1]⟩ (1 / 4) = 1 / 4 := by
    norm_num [Curve.at, rustCastUsize, rustFract, rustTrunc, hf4]
  have e2 : Curve.at (appendPoint ⟨[0, 1]⟩) (1 / 4) = 1 / 2 := by
    norm_num [Curve.at, appendPoint, rustCastUsize, rustFract, rustTrunc, hf2]
  refine ⟨e1, e2, ?_⟩
  rw [e1, e2]
  norm_num

/-- Claim C5 (amended): appending a duplicate of the last point adds one
point and preserves the curve's values only up to time rescaling: for a
curve with `n` points, the appended curve at `t` equals the original at
`t * n / (n - 1)` while `t * n ≤ n - 1`, and equals the last point on
the remaining tail `t * n ≥ n - 1`; in particular the endpoint values
at `t = 0` and `t = 1` are preserved, and a single-point curve is
pointwise unchanged. -/
theorem append_point_rescales_curve (c : Curve) (t : ℚ)
    (hn : 1 ≤ c.points.length) (h0 : 0 ≤ t) (h1 : t ≤ 1) :
    (appendPoint c).points.length = c.points.length + 1 ∧
    Curve.at (appendPoint c) 0 = Curve.at c 0 ∧
    Curve.at (appendPoint c) 1 = Curve.at c 1 ∧
    (c.points.length = 1 → Curve.at (appendPoint c) t = Curve.at c t) ∧
    (t * c.points.length ≤ (c.points.length : ℚ) - 1 →
      Curve.at (appendPoint c) t =
        Curve.at c (t * c.points.length / ((c.points.length : ℚ) - 1))) ∧
    ((c.points.length : ℚ) - 1 ≤ t * c.points.length →
      Curve.at (appendPoint c) t = c.points.getD (c.points.length - 1) 0) := by
  refine ⟨by simp [appendPoint], ?_, ?_, ?_, fun hA => append_at_low c t hn h0 hA,
    fun hB => append_at_high c t hn h0 h1 hB⟩
  · rw [curve_at_zero, curve_at_zero]
    show (c.points ++ [c.points.getLastD 0]).getD 0 0 = _
    exact getD_append_lt _ _ _ (by omega)
  · rw [curve_at_one_eq_last, curve_at_one_eq_last]
    have hq : (appendPoint c).points.length = c.points.length + 1 := by simp [appendPoint]
    rw [hq, Nat.add_sub_cancel]
    show (c.points ++ [c.points.getLastD 0]).getD c.points.length 0 = _
    rw [getD_append_len, getLastD_eq_getD_length_sub_one]
  · intro hlen
    rw [curve_at_singleton c hlen t,
      append_at_high c t hn h0 h1 (by rw [hlen]; push_cast; linarith), hlen]

theorem append_point_rescales_curve_witness :
    (appendPoint ⟨[0, 1]⟩).points.length = (Curve.mk [0, 1]).points.length + 1 ∧
    Curve.at (appendPoint ⟨[0, 1]⟩) 0 = Curve.at ⟨[0, 1]⟩ 0 ∧
    Curve.at (appendPoint ⟨[0, 1]⟩) 1 = Curve.at ⟨[0, 1]⟩ 1 ∧
    ((Curve.mk [0, 1]).points.length = 1 →
      Curve.at (appendPoint ⟨[0, 1]⟩) (1 / 4) = Curve.at ⟨[0, 1]⟩ (1 / 4)) ∧
    (1 / 4 * ((Curve.mk [0, 1]).points.length : ℚ) ≤ ((Curve.mk [0, 1]).points.length : ℚ) - 1 →
      Curve.at (appendPoint ⟨[0, 1]⟩) (1 / 4) =
        Curve.at ⟨[0, 1]⟩ (1 / 4 * ((Curve.mk [0, 1]).points.length : ℚ) /
          (((Curve.mk [0, 1]).points.length : ℚ) - 1))) ∧
    (((Curve.mk [0, 1]).points.length : ℚ) - 1 ≤ 1 / 4 * ((Curve.mk [0, 1]).points.length : ℚ) →
      Curve.at (appendPoint ⟨[0, 1]⟩) (1 / 4) =
        (Curve.mk [0, 1]).points.getD ((Curve.mk [0, 1]).points.length - 1) 0) :=
  append_point_rescales_curve ⟨[0, 1]⟩ (1 / 4) (by norm_num) (by norm_num) (by norm_num)

theorem getElem?_eq_some_getD (l : List ℚ) (k : ℕ) (h : k < l.length) :
    l[k]? = some (l.getD k 0) := by
  rw [List.getD_eq_getElem?_getD, List.getElem?_eq_getElem h]
  rfl

theorem curve_atChecked_eq_some (c : Curve) (t : ℚ) (hn : 1 ≤ c.points.length)
    (h0 : 0 ≤ t) (h1 : t ≤ 1) :
    Curve.atChecked c t = some (Curve.at c t) := by
  have hi0 : (0 : ℚ) ≤ t * ((c.points.length - 1 : ℕ) : ℚ) :=
    mul_nonneg h0 (Nat.cast_nonneg _)
  have hub : t * (((c.points.length - 1 : ℕ)) : ℚ) ≤ ((c.points.length - 1 : ℕ) : ℚ) := by
    calc t * (((c.points.length - 1 : ℕ)) : ℚ) ≤ 1 * ((c.points.length - 1 : ℕ) : ℚ) :=
          mul_le_mul_of_nonneg_right h1 (Nat.cast_nonneg _)
      _ = ((c.points.length - 1 : ℕ) : ℚ) := one_mul _
  have hfl : ⌊t * ((c.points.length - 1 : ℕ) : ℚ)⌋ ≤ ((c.points.length - 1 : ℕ) : ℤ) := by
    have := Int.floor_le_floor hub
    rwa [Int.floor_natCast] at this
  have hk0 : 0 ≤ ⌊t * ((c.points.length - 1 : ℕ) : ℚ)⌋ := Int.floor_nonneg.mpr hi0
  have hkb : (⌊t * ((c.points.length - 1 : ℕ) : ℚ)⌋).toNat ≤ c.points.length - 1 := by omega
  simp only [Curve.atChecked, Curve.at, rustCastUsize_of_nonneg hi0]
  by_cases h : (⌊t * ((c.points.length - 1 : ℕ) : ℚ)⌋).toNat = c.points.length - 1
  · rw [if_pos h, if_pos h, getElem?_eq_some_getD _ _ (by omega)]
  · rw [if_neg h, if_neg h, getElem?_eq_some_getD _ _ (by omega),
      getElem?_eq_some_getD _ _ (by omega)]
    rfl

/-- Claim C9: under the documented invariants (non-empty curves, counter
below a positive `u32` sample rate) the audio path cannot panic: `sec`
lies in `[0,1)`, every guarded curve evaluation performed by
`write_data` — the master amplitude and each wave's frequency and
amplitude curve — succeeds, and the counter increment does not overflow
`u32`.  Format conversion is modelled by the total function `conv` and
so always succeeds. -/
theorem audio_path_never_panics (p : Playback) (cfg : StreamConfig)
    (hcfg : p.streamConfig = some cfg) (hinv : TimbreInv p.timbre)
    (hs : p.sample < cfg.sampleRate) (hR32 : cfg.sampleRate < 2 ^ 32) :
    0 ≤ (p.sample : ℚ) / (cfg.sampleRate : ℚ) ∧
    (p.sample : ℚ) / (cfg.sampleRate : ℚ) < 1 ∧
    Curve.atChecked p.timbre.amp ((p.sample : ℚ) / (cfg.sampleRate : ℚ)) =
      some (Curve.at p.timbre.amp ((p.sample : ℚ) / (cfg.sampleRate : ℚ))) ∧
    (∀ w ∈ p.timbre.waves,
      Curve.atChecked w.freq ((p.sample : ℚ) / (cfg.sampleRate : ℚ)) =
        some (Curve.at w.freq ((p.sample : ℚ) / (cfg.sampleRate : ℚ))) ∧
      Curve.atChecked w.amp ((p.sample : ℚ) / (cfg.sampleRate : ℚ)) =
        some (Curve.at w.amp ((p.sample : ℚ) / (cfg.sampleRate : ℚ)))) ∧
    p.sample + 1 < 2 ^ 32 := by
  have hR : 0 < cfg.sampleRate := Nat.pos_of_ne_zero (by omega)
  have hsec0 : 0 ≤ (p.sample : ℚ) / (cfg.sampleRate : ℚ) := by positivity
  have hsec1 : (p.sample : ℚ) / (cfg.sampleRate : ℚ) < 1 := by
    rw [div_lt_one (by exact_mod_cast hR)]
    exact_mod_cast hs
  refine ⟨hsec0, hsec1, ?_, ?_, by omega⟩
  · exact curve_atChecked_eq_some _ _ hinv.1 hsec0 hsec1.le
  · intro w hw
    obtain ⟨hf, ha⟩ := hinv.2 w hw
    exact ⟨curve_atChecked_eq_some _ _ hf hsec0 hsec1.le,
      curve_atChecked_eq_some _ _ ha hsec0 hsec1.le⟩

theorem audio_path_never_panics_witness :
    0 ≤ ((1 : ℕ) : ℚ) / ((4 : ℕ) : ℚ) ∧
    ((1 : ℕ) : ℚ) / ((4 : ℕ) : ℚ) < 1 ∧
    Curve.atChecked ⟨[1 / 2]⟩ (((1 : ℕ) : ℚ) / ((4 : ℕ) : ℚ)) =
      some (Curve.at ⟨[1 / 2]⟩ (((1 : ℕ) : ℚ) / ((4 : ℕ) : ℚ))) ∧
    (∀ w ∈ [Wave.mk .sine ⟨[1]⟩ ⟨[1 / 2]⟩],
      Curve.atChecked w.freq (((1 : ℕ) : ℚ) / ((4 : ℕ) : ℚ)) =
        some (Curve.at w.freq (((1 : ℕ) : ℚ) / ((4 : ℕ) : ℚ))) ∧
      Curve.atChecked w.amp (((1 : ℕ) : ℚ) / ((4 : ℕ) : ℚ)) =
        some (Curve.at w.amp (((1 : ℕ) : ℚ) / ((4 : ℕ) : ℚ)))) ∧
    (1 : ℕ) + 1 < 2 ^ 32 :=
  audio_path_never_panics
    ⟨some ⟨2, 4⟩, 1, 440, ⟨⟨[1 / 2]⟩, [Wave.mk .sine ⟨[1]⟩ ⟨[1 / 2]⟩]⟩⟩ ⟨2, 4⟩
    rfl ⟨by norm_num, by intro w hw; simp at hw; subst hw; constructor <;> norm_num⟩
    (by norm_num) (by norm_num)

theorem writeFrames_buffer {T : Type} (ext : FloatExt) (conv : ℚ → T)
    (cfg : StreamConfig) (hz : ℚ) (timbre : Timbre) (hch : 1 ≤ cfg.channels) :
    ∀ (data : List T) (s : ℕ), s < cfg.sampleRate →
      (writeFrames ext conv cfg hz timbre data s).1 =
        (List.range data.length).map (fun idx =>
          conv (mixValue ext timbre
            ((((s + idx / cfg.channels) % cfg.sampleRate : ℕ) : ℚ) / (cfg.sampleRate : ℚ))
            hz))
  | [], s, _ => by simp [writeFrames]
  | d :: ds, s, hs => by
      have hR : 0 < cfg.sampleRate := Nat.pos_of_ne_zero (by omega)
      have hs2 : advance cfg.sampleRate s < cfg.sampleRate := Nat.mod_lt _ hR
      have ih := writeFrames_buffer ext conv cfg hz timbre hch
        (ds.drop (cfg.channels - 1)) (advance cfg.sampleRate s) hs2
      have hcl : 1 + min (cfg.channels - 1) ds.length ≤ cfg.channels := by omega
      have hrl : (ds.drop (cfg.channels - 1)).length =
          ds.length - (cfg.channels - 1) := List.length_drop _ _
      have hsplit : (d :: ds).length =
          (1 + min (cfg.channels - 1) ds.length) + (ds.length - (cfg.channels - 1)) := by
        simp only [List.length_cons]
        omega
      simp only [writeFrames, ih, hrl, hsplit]
      rw [List.range_add, List.map_append]
      congr 1
      · -- the first frame: every channel slot holds the value for counter s
        symm
        apply List.eq_replicate_iff.mpr
        constructor
        · simp
        · intro b hb
          simp only [List.mem_map, List.mem_range] at hb
          obtain ⟨i, hi, rfl⟩ := hb
          have hdiv : i / cfg.channels = 0 := Nat.div_eq_of_lt (by omega)
          rw [hdiv, Nat.add_zero, Nat.mod_eq_of_lt hs]
      · -- the remaining frames: shift the frame index by one
        rw [List.map_map]
        apply List.map_congr_left
        intro i hi
        simp only [List.mem_range] at hi
        have hch' : min (cfg.channels - 1) ds.length = cfg.channels - 1 := by omega
        simp only [Function.comp_apply]
        have hidx : 1 + min (cfg.channels - 1) ds.length + i = i + cfg.channels := by omega
        rw [hidx, Nat.add_div_right i (by omega), advance]
        have hmod : ((s + 1) % cfg.sampleRate + i / cfg.channels) % cfg.sampleRate =
            (s + (i / cfg.channels + 1)) % cfg.sampleRate := by
          have := (Nat.mod_modEq (s + 1) cfg.sampleRate).add_right (i / cfg.channels)
          calc ((s + 1) % cfg.sampleRate + i / cfg.channels) % cfg.sampleRate
              = (s + 1 + i / cfg.channels) % cfg.sampleRate := this
            _ = (s + (i / cfg.channels + 1)) % cfg.sampleRate := by ring_nf
        rw [hmod]
  termination_by data => data.length
  decreasing_by simp [List.length_drop]; omega

/-- Claim C1: with a stream config installed, every element written by
`write_data` carries the value of its frame: with frame index
`j = idx / channels` and `sec = ((sample + j) % sample_rate) / sample_rate`,
the ordered sum over the timbre's waves of
`waveform.at (sec * hz * freq.at sec) * amp.at sec`, scaled by the
master amplitude curve at `sec` with no normalization or clipping, then
converted by `conv`; the identical converted value fills every channel
slot of a frame. -/
theorem write_data_fills_frames {T : Type} (ext : FloatExt) (conv : ℚ → T)
    (data : List T) (p : Playback) (cfg : StreamConfig)
    (hcfg : p.streamConfig = some cfg) (hch : 1 ≤ cfg.channels)
    (hs : p.sample < cfg.sampleRate) :
    (writeData ext conv data p).1 =
      (List.range data.length).map (fun idx =>
        conv ((p.timbre.waves.map (fun w =>
            Waveform.at ext w.waveform
              ((((p.sample + idx / cfg.channels) % cfg.sampleRate : ℕ) : ℚ) /
                  (cfg.sampleRate : ℚ) * p.hz *
                Curve.at w.freq
                  ((((p.sample + idx / cfg.channels) % cfg.sampleRate : ℕ) : ℚ) /
                    (cfg.sampleRate : ℚ))) *
              Curve.at w.amp
                ((((p.sample + idx / cfg.channels) % cfg.sampleRate : ℕ) : ℚ) /
                  (cfg.sampleRate : ℚ)))).sum *
          Curve.at p.timbre.amp
            ((((p.sample + idx / cfg.channels) % cfg.sampleRate : ℕ) : ℚ) /
              (cfg.sampleRate : ℚ)))) := by
  have h := writeFrames_buffer ext conv cfg p.hz p.timbre hch data p.sample hs
  simp only [writeData, hcfg]
  simp only [mixValue, Wave.at] at h
  exact h

theorem write_data_fills_frames_witness :
    (writeData ext0 (id : ℚ → ℚ) [9, 9, 9]
        (Playback.mk (some ⟨2, 4⟩) 1 440 ⟨⟨[1 / 2]⟩, []⟩)).1 =
      (List.range ([(9 : ℚ), 9, 9]).length).map (fun idx =>
        id (((Timbre.mk ⟨[1 / 2]⟩ []).waves.map (fun w =>
            Waveform.at ext0 w.waveform
              ((((1 + idx / 2) % 4 : ℕ) : ℚ) / ((4 : ℕ) : ℚ) * 440 *
                Curve.at w.freq ((((1 + idx / 2) % 4 : ℕ) : ℚ) / ((4 : ℕ) : ℚ))) *
              Curve.at w.amp ((((1 + idx / 2) % 4 : ℕ) : ℚ) / ((4 : ℕ) : ℚ)))).sum *
          Curve.at ⟨[1 / 2]⟩ ((((1 + idx / 2) % 4 : ℕ) : ℚ) / ((4 : ℕ) : ℚ)))) :=
  write_data_fills_frames ext0 (id : ℚ → ℚ) [9, 9, 9]
    (Playback.mk (some ⟨2, 4⟩) 1 440 ⟨⟨[1 / 2]⟩, []⟩) ⟨2, 4⟩ rfl
    (by norm_num) (by norm_num)

end TimbreTweak
